import Mathlib

/-!
Verification of the image-extraction pipeline of
`0001-extract-images-from-excel/main.py` and `common/utils.py`.

Python strings are modelled as `List Char`.  Each definition in the
first part of this file is a shallow embedding of one Python function
of the repository (named after it); definitions whose name starts with
`spec_` or ends in `_claimed` transcribe the natural-language
specification instead and are compared with the source-derived ones in
the theorems.
-/

namespace ExcelExtract

/-! ## Python string primitives -/

/-- Characters for which Python's `str.isspace()` (and hence the
no-argument `str.strip()`) returns `True`: ASCII whitespace 9–13,
the separators 28–31, the space, NEL (0x85), NBSP (0xA0), and the
Unicode space characters. -/
def isPySpace (c : Char) : Bool :=
  (9 ≤ c.toNat && c.toNat ≤ 13) || (28 ≤ c.toNat && c.toNat ≤ 32) ||
  c.toNat == 133 || c.toNat == 160 || c.toNat == 0x1680 ||
  (0x2000 ≤ c.toNat && c.toNat ≤ 0x200a) ||
  c.toNat == 0x2028 || c.toNat == 0x2029 || c.toNat == 0x202f ||
  c.toNat == 0x205f || c.toNat == 0x3000

/-- Characters stripped by Python's `str.strip(". ")`. -/
def isDotSpace (c : Char) : Bool :=
  c == '.' || c == ' '

/-- Python's `s.strip(...)` for a character class `p`: remove matching
characters from both ends. -/
def py_strip (p : Char → Bool) (l : List Char) : List Char :=
  ((l.dropWhile p).reverse.dropWhile p).reverse

/-- The character class of the regex `[\\/*?:"<>|\r\n\t]` used by
`get_safe_filename` in `common/utils.py`. -/
def isIllegalChar (c : Char) : Bool :=
  c == '\\' || c == '/' || c == '*' || c == '?' || c == ':' ||
  c == '\"' || c == '<' || c == '>' || c == '|' ||
  c == '\r' || c == '\n' || c == '\t'

/-- One character of `re.sub(r'[\\/*?:"<>|\r\n\t]', "_", ·)`. -/
def subIllegal (c : Char) : Char :=
  if isIllegalChar c then '_' else c

/-- The canonical placeholder `"未命名"` returned for empty names. -/
def placeholderName : List Char := ['未', '命', '名']

/-- The truncation step of `get_safe_filename`: a name longer than the
(default) `max_length=100` becomes `name[:100 - 3] + "..."`. -/
def truncate100 (l : List Char) : List Char :=
  if 100 < l.length then l.take 97 ++ ['.', '.', '.'] else l

/-- The empty-name guard `return name or "未命名"`. -/
def orPlaceholder (l : List Char) : List Char :=
  if l.isEmpty then placeholderName else l

/-- Embedding of `get_safe_filename(name)` from `common/utils.py`
(every call site in the repository uses the default `max_length=100`):
`str(name).strip()`, then the regex substitution, then `strip(". ")`,
then truncation, then the empty-name placeholder. -/
def get_safe_filename (name : List Char) : List Char :=
  orPlaceholder
    (truncate100 (py_strip isDotSpace ((py_strip isPySpace name).map subIllegal)))

/-! ## Spec-side sanitization (independent formulation)

The following definitions transcribe the spec's sanitization rule with
independently structured recursions, to be compared with
`get_safe_filename` above. -/

/-- The spec's list of filename-illegal characters
`\\ / * ? : " < > |` plus raw CR, LF and TAB. -/
def illegalList : List Char :=
  ['\\', '/', '*', '?', ':', '\"', '<', '>', '|', '\r', '\n', '\t']

/-- Spec-side replacement: each illegal character becomes `'_'`. -/
def spec_replace (s : List Char) : List Char :=
  s.map (fun c => if c ∈ illegalList then '_' else c)

/-- Remove characters of the class `p` from the front of a name. -/
def spec_trim_left (p : Char → Bool) : List Char → List Char
  | [] => []
  | c :: rest => if p c then spec_trim_left p rest else c :: rest

/-- Remove characters of the class `p` from the back of a name,
defined by direct structural recursion (no reversing). -/
def spec_trim_right (p : Char → Bool) : List Char → List Char
  | [] => []
  | c :: rest =>
    if (spec_trim_right p rest).isEmpty && p c then []
    else c :: spec_trim_right p rest

/-- Trim a character class from both ends. -/
def spec_trim (p : Char → Bool) (s : List Char) : List Char :=
  spec_trim_right p (spec_trim_left p s)

/-- Spec-side truncation: results longer than 100 characters become
exactly 100 characters ending in a three-character ellipsis. -/
def spec_truncate (c : List Char) : List Char :=
  if 100 < c.length then c.take (100 - 3) ++ List.replicate 3 '.' else c

/-- Spec-side empty-result fallback to the canonical placeholder. -/
def spec_finalize (d : List Char) : List Char :=
  if d.length = 0 then ("未命名").toList else d

/-- Amended sanitization rule, following the spec's words: first trim
leading/trailing whitespace, then replace every illegal character with
`'_'`, then trim leading **and** trailing periods and spaces, then
truncate, and fall back to the canonical placeholder when the result
is empty. -/
def safe_filename_spec (s : List Char) : List Char :=
  spec_finalize
    (spec_truncate (spec_trim isDotSpace (spec_replace (spec_trim isPySpace s))))

/-- The sanitization rule exactly as claim C3 states it: replace every
illegal character with `'_'`, trim leading/trailing whitespace, trim
trailing (but not leading) periods, truncate, placeholder. -/
def safe_filename_claimed (s : List Char) : List Char :=
  spec_finalize
    (spec_truncate
      (spec_trim_right (fun ch => ch == '.')
        (spec_trim isPySpace (spec_replace s))))

/-! ## Decimal rendering and parsing

`natToDecimal` embeds Python's `str(counter)` (the counters come from
`QSpinBox` widgets with range `0..999999`, hence `Nat`).  The fuel
argument makes the recursion structural so the kernel can evaluate it. -/

/-- The decimal digit character for `d < 10`. -/
def digitChar (d : Nat) : Char :=
  match d with
  | 0 => '0' | 1 => '1' | 2 => '2' | 3 => '3' | 4 => '4'
  | 5 => '5' | 6 => '6' | 7 => '7' | 8 => '8' | 9 => '9'
  | _ => '*'

/-- Numeric value of a digit character. -/
def dVal (c : Char) : Nat := c.toNat - 48

def natToDecimalAux : Nat → Nat → List Char
  | 0, _ => []
  | fuel + 1, n =>
    if n < 10 then [digitChar n]
    else natToDecimalAux fuel (n / 10) ++ [digitChar (n % 10)]

/-- Python's `str(n)` for a natural number. -/
def natToDecimal (n : Nat) : List Char := natToDecimalAux (n + 1) n

/-- Value of a digit string, as computed by Python's `int(...)` on a
run of ASCII digits. -/
def decValue (l : List Char) : Nat :=
  l.foldl (fun a c => 10 * a + dVal c) 0

/-! ## Naming resolver (`_make_name`, lines 388–415 of main.py) -/

/-- The four `NAMING_*` mode constants of main.py. -/
inductive NamingMode
  | seq    -- NAMING_SEQ
  | pfx    -- NAMING_PREFIX
  | link   -- NAMING_LINK
  | regex  -- NAMING_REGEX
deriving DecidableEq

/-- The user-entered naming parameters (`prefix_input`,
`prefix_sep_input`, `regex_input` text fields). -/
structure NamingCfg where
  pfxText : List Char
  sepText : List Char
  tplText : List Char
deriving DecidableEq

/-- Does the pattern `{n}` occur in the template?  (The template's
three-character placeholder is written here as its characters.) -/
def occursPat : List Char → Bool
  | [] => false
  | c :: rest => (c == '{' && rest.take 2 == ['n', '}']) || occursPat rest

/-- Python's `tpl.replace("{n}", r)`: replace every (leftmost,
non-overlapping) occurrence of the placeholder.  Structural fuel
recursion; `replaceN` supplies adequate fuel. -/
def replaceNAux (r : List Char) : Nat → List Char → List Char
  | _, [] => []
  | 0, l => l
  | fuel + 1, c :: rest =>
    if c == '{' && rest.take 2 == ['n', '}'] then
      r ++ replaceNAux r fuel (rest.drop 2)
    else c :: replaceNAux r fuel rest

def replaceN (r tpl : List Char) : List Char := replaceNAux r tpl.length tpl

/-- The default template `"img_{n}"` substituted by
`self.regex_input.text() or "img_{n}"` when the field is empty. -/
def defaultTpl : List Char := ['i', 'm', 'g', '_', '{', 'n', '}']

/-- The default name stem `"Image"` substituted by
`self.prefix_input.text() or "Image"` when the field is empty. -/
def defaultStem : List Char := ['I', 'm', 'a', 'g', 'e']

/-- Embedding of `_make_name(mode, counter, link_text)`:
sequence number, stem+separator+number, link text with sequential
fallback, or template substitution. -/
def make_name (cfg : NamingCfg) (mode : NamingMode) (counter : Nat)
    (linkText : Option (List Char)) : List Char :=
  match mode with
  | .seq => natToDecimal counter
  | .pfx =>
    (if cfg.pfxText.isEmpty then defaultStem else cfg.pfxText) ++
      cfg.sepText ++ natToDecimal counter
  | .link =>
    match linkText with
    | some t =>
      if (py_strip isPySpace t).isEmpty then natToDecimal counter
      else get_safe_filename t
    | none => natToDecimal counter
  | .regex =>
    replaceN (natToDecimal counter)
      (if cfg.tplText.isEmpty then defaultTpl else cfg.tplText)

/-! ## URL extraction from a cell (`_get_url_from_cell`, lines 773–786) -/

/-- Does the character list start with the given pattern? -/
def listStartsWith : List Char → List Char → Bool
  | [], _ => true
  | _ :: _, [] => false
  | p :: ps, c :: cs => p == c && listStartsWith ps cs

/-- Python's `s.startswith(('http://', 'https://'))`. -/
def startsHttp (s : List Char) : Bool :=
  listStartsWith (("http://").toList) s || listStartsWith (("https://").toList) s

/-- A worksheet cell as the extractor sees it: the optional hyperlink
target and display text (`cell.hyperlink.target` / `.display`), and
the cell's value when it is a non-`None` value rendered as a string.
`none`/the empty list model Python falsy values. -/
structure Cell where
  hyperlinkTarget : Option (List Char)
  hyperlinkDisplay : Option (List Char)
  value : Option (List Char)
deriving DecidableEq

/-- Embedding of `_get_url_from_cell(cell)`: accept the stripped
hyperlink target if it starts with `http://`/`https://`, else the
stripped string value under the same test, else nothing. -/
def get_url_from_cell (cell : Cell) : Option (List Char) :=
  match cell.hyperlinkTarget with
  | some t =>
    if !t.isEmpty && startsHttp (py_strip isPySpace t) then
      some (py_strip isPySpace t)
    else
      match cell.value with
      | some v =>
        if !v.isEmpty && startsHttp (py_strip isPySpace v) then
          some (py_strip isPySpace v)
        else none
      | none => none
  | none =>
    match cell.value with
    | some v =>
      if !v.isEmpty && startsHttp (py_strip isPySpace v) then
        some (py_strip isPySpace v)
      else none
    | none => none

/-! ## Column extraction strategy (`_extract_by_column`, lines 587–704)

One worksheet row is abstracted by the data the loop inspects: the
name-column cell value, the image-column cell, and oracles for the
effectful steps (embedded lookup hit, embedded save success, download
success, and an unexpected exception raised at the start of the row's
`try` block, e.g. during name resolution). -/

structure Row where
  nameCellValue : Option (List Char)  -- name-column cell, `str(value)` if not None
  imgCell : Cell                      -- image-column cell
  hasEmbedded : Bool                  -- `image_loader.image_in(cell_ref)`
  embedOk : Bool                      -- `loader.get` + `_save_image` succeed
  downloadOk : Bool                   -- `_download_and_save` returns True
  rowExn : Bool                       -- unexpected exception, caught by the row's handler
deriving DecidableEq

/-- Per-run configuration of the column strategy. -/
structure ColConfig where
  loader : Bool        -- embedded-image loader imported and initialized
  nameCol : Bool       -- a name column is configured (non-empty field)
  mode : NamingMode
  naming : NamingCfg
deriving DecidableEq

/-- Embedding of `_resolve_column_name`: name-column value first (if
non-empty after stripping and not URL-shaped), then for LINK_TEXT mode
the image cell's display text or hyperlink display (same conditions),
else `_make_name` with the current counter. -/
def resolve_column_name (cfg : ColConfig) (r : Row) (counter : Nat) :
    List Char :=
  let fromName : Option (List Char) :=
    if cfg.nameCol then
      match r.nameCellValue with
      | some v =>
        let text := py_strip isPySpace v
        if !text.isEmpty && !startsHttp text then
          some (get_safe_filename text)
        else none
      | none => none
    else none
  match fromName with
  | some n => n
  | none =>
    let fromLink : Option (List Char) :=
      if cfg.mode = NamingMode.link then
        match r.imgCell.value with
        | some t =>
          let display := py_strip isPySpace t
          if !display.isEmpty && !startsHttp display then
            some (get_safe_filename display)
          else
            match r.imgCell.hyperlinkDisplay with
            | some d =>
              let disp := py_strip isPySpace d
              if !disp.isEmpty && !startsHttp disp then
                some (get_safe_filename disp)
              else none
            | none => none
        | none =>
          match r.imgCell.hyperlinkDisplay with
          | some d =>
            let disp := py_strip isPySpace d
            if !disp.isEmpty && !startsHttp disp then
              some (get_safe_filename disp)
            else none
          | none => none
      else none
    match fromLink with
    | some n => n
    | none => make_name cfg.naming cfg.mode counter none

/-- The running counts and naming counter of one column-strategy run,
together with the histories needed by the claims: the counter values
and resolved names used at the successful saves. -/
structure ColState where
  success : Nat
  failed : Nat
  skipped : Nat
  counter : Nat
  savedCounters : List Nat
  savedNames : List (List Char)
deriving DecidableEq

/-- Does the embedded-image branch save this row?  (`image_loader`
present, `image_in` true, and `get`+save raise nothing.) -/
def embed_saves (cfg : ColConfig) (r : Row) : Bool :=
  cfg.loader && r.hasEmbedded && r.embedOk

/-- One iteration of the row loop of `_extract_by_column`: embedded
image first; if nothing was saved, URL download; `failed` on a download
failure or a caught row exception; `skipped` whenever the row ends with
`saved == False`. -/
def col_step (cfg : ColConfig) (st : ColState) (r : Row) : ColState :=
  if r.rowExn then { st with failed := st.failed + 1 }
  else
    let nm := resolve_column_name cfg r st.counter
    if embed_saves cfg r then
      { st with
        success := st.success + 1
        counter := st.counter + 1
        savedCounters := st.savedCounters ++ [st.counter]
        savedNames := st.savedNames ++ [nm] }
    else
      match get_url_from_cell r.imgCell with
      | some _ =>
        if r.downloadOk then
          { st with
            success := st.success + 1
            counter := st.counter + 1
            savedCounters := st.savedCounters ++ [st.counter]
            savedNames := st.savedNames ++ [nm] }
        else
          { st with
            failed := st.failed + 1
            skipped := st.skipped + 1 }
      | none => { st with skipped := st.skipped + 1 }

/-- Initial state of a run whose naming counter starts at `start`. -/
def initState (start : Nat) : ColState :=
  ⟨0, 0, 0, start, [], []⟩

/-- The whole row loop (rows are processed in worksheet order). -/
def col_run (cfg : ColConfig) (start : Nat) (rows : List Row) : ColState :=
  rows.foldl (col_step cfg) (initState start)

/-! Row classification predicates used to state the counting claims. -/

/-- The row ends with a successful save. -/
def row_saves (cfg : ColConfig) (r : Row) : Bool :=
  !r.rowExn &&
    (embed_saves cfg r || ((get_url_from_cell r.imgCell).isSome && r.downloadOk))

/-- The row increments `failed`: a caught exception, or a present URL
whose download fails when the embedded branch saved nothing. -/
def row_fails (cfg : ColConfig) (r : Row) : Bool :=
  r.rowExn ||
    (!embed_saves cfg r && (get_url_from_cell r.imgCell).isSome && !r.downloadOk)

/-- The row increments `skipped`: no exception and no save. -/
def row_skips (cfg : ColConfig) (r : Row) : Bool :=
  !r.rowExn && !row_saves cfg r

/-- The row's URL download was attempted and failed. -/
def row_dlfail (cfg : ColConfig) (r : Row) : Bool :=
  !r.rowExn && !embed_saves cfg r &&
    (get_url_from_cell r.imgCell).isSome && !r.downloadOk

/-! ## Archive extraction strategy (`_extract_all_images`, lines 503–583) -/

/-- Outcome of processing one media member: `zf.read` raises,
`_open_image_data` returns `None`, the save raises, or the member is
saved. -/
inductive MediaOutcome
  | readErr
  | unsupported
  | saveErr
  | ok
deriving DecidableEq

/-- Running counts of the archive strategy with the naming history. -/
structure AllState where
  success : Nat
  failed : Nat
  counter : Nat
  savedCounters : List Nat
  savedNames : List (List Char)
deriving DecidableEq

/-- One iteration of the media loop: every non-`ok` outcome increments
`failed`; a save increments `success` and the counter and consumes the
name `_make_name(naming_mode, counter)`. -/
def all_step (cfg : NamingCfg) (mode : NamingMode) (st : AllState)
    (o : MediaOutcome) : AllState :=
  match o with
  | .ok =>
    { st with
      success := st.success + 1
      counter := st.counter + 1
      savedCounters := st.savedCounters ++ [st.counter]
      savedNames := st.savedNames ++ [make_name cfg mode st.counter none] }
  | _ => { st with failed := st.failed + 1 }

/-- The media loop of `_extract_all_images` over the (sorted) members. -/
def all_run (cfg : NamingCfg) (mode : NamingMode) (start : Nat)
    (outcomes : List MediaOutcome) : AllState :=
  outcomes.foldl (all_step cfg mode) ⟨0, 0, start, [], []⟩

/-- Boolean test for a successfully saved media member. -/
def isOk (o : MediaOutcome) : Bool := decide (o = MediaOutcome.ok)

/-! ## Archive member ordering (`_sort_key`, lines 519–523) -/

/-- Maximal runs of ASCII decimal digits in a member path, in order —
the matches of `re.findall(r'(\d+)', fname)` (member paths such as
`xl/media/image1.png` are ASCII).  Fuel keeps the recursion
structural. -/
def digitRunsAux : Nat → List Char → List (List Char)
  | 0, _ => []
  | _, [] => []
  | fuel + 1, c :: rest =>
    if c.isDigit then
      (c :: rest.takeWhile Char.isDigit) ::
        digitRunsAux fuel (rest.dropWhile Char.isDigit)
    else digitRunsAux fuel rest

def digitRuns (l : List Char) : List (List Char) :=
  digitRunsAux l.length l

/-- Embedding of `_sort_key(fname)`: `int(nums[-1]) if nums else 0`. -/
def sort_key (fname : List Char) : Nat :=
  match (digitRuns fname).getLast? with
  | some run => decValue run
  | none => 0

/-- Python's `list.sort(key=_sort_key)` is a stable ascending sort: it
is extensionally the unique sort of the index-value pairs by the
lexicographic order on (key, original position).  `lexLe` is that
order. -/
def lexLe (a b : Nat × List Char) : Prop :=
  sort_key a.2 < sort_key b.2 ∨ (sort_key a.2 = sort_key b.2 ∧ a.1 ≤ b.1)

instance : DecidableRel lexLe := fun a b => by
  unfold lexLe; infer_instance

/-- Stable insertion of an indexed member: it goes right before the
first strictly lex-greater element. -/
def insLex (x : Nat × List Char) : List (Nat × List Char) → List (Nat × List Char)
  | [] => [x]
  | y :: ys =>
    if sort_key x.2 < sort_key y.2 ∨
        (sort_key x.2 = sort_key y.2 ∧ x.1 < y.1) then x :: y :: ys
    else y :: insLex x ys

/-- Insertion sort of indexed members by `lexLe`. -/
def isortLex : List (Nat × List Char) → List (Nat × List Char)
  | [] => []
  | x :: xs => insLex x (isortLex xs)

/-- Embedding of `media_files.sort(key=_sort_key)`: sort the enumerated
members stably by key and forget the positions again. -/
def sortMedia (files : List (List Char)) : List (List Char) :=
  (isortLex files.enum).map Prod.snd

/-! ## Unique path allocator (`_get_unique_path`, lines 788–796) -/

/-- The file component, Python's f-string joining name and format with
a period. -/
def mkFile (name fmt : List Char) : List Char := name ++ '.' :: fmt

/-- The join of directory and file rendered as a path string. -/
def mkPath (dir file : List Char) : List Char := dir ++ '/' :: file

/-- The `k`-th fallback candidate `directory / f"{name}_{k}.{fmt}"`. -/
def cand (dir name fmt : List Char) (k : Nat) : List Char :=
  mkPath dir (mkFile (name ++ '_' :: natToDecimal k) fmt)

/-- The `while filepath.exists()` probe loop, with the existing paths
of the directory given as the list `ex`.  The fuel `ex.length + 1`
supplied by `get_unique_path` is enough for the loop to find a free
candidate, so the embedding equals the unbounded Python loop. -/
def uniq_loop (ex : List (List Char)) (dir name fmt : List Char) :
    Nat → Nat → List Char
  | 0, k => cand dir name fmt k
  | fuel + 1, k =>
    if cand dir name fmt k ∈ ex then uniq_loop ex dir name fmt fuel (k + 1)
    else cand dir name fmt k

/-- Embedding of `_get_unique_path(directory, name, fmt)`. -/
def get_unique_path (ex : List (List Char)) (dir name fmt : List Char) :
    List Char :=
  let first := mkPath dir (mkFile name fmt)
  if first ∈ ex then uniq_loop ex dir name fmt (ex.length + 1) 1
  else first

/-! ## Downloader (`_download_and_save`, lines 813–849)

The per-attempt effects are abstracted by two oracles: `stop i` is the
cancellation flag read before attempt `i`, and `fetch i` tells whether
attempt `i`'s fetch + decode + save succeed. -/

structure DlResult where
  ok : Bool            -- return value
  attempts : Nat       -- number of fetch attempts actually issued
  sleeps : List Nat    -- backoff sleeps performed, in seconds
  wrote : Bool         -- a file was written
deriving DecidableEq

/-- The `for attempt in range(max_retries)` loop over the remaining
attempt indices: check cancellation, try the attempt, and on failure
sleep `1 * (attempt + 1)` seconds unless it was the last attempt. -/
def dl_attempts (stop fetch : Nat → Bool) (maxRetries : Nat) :
    List Nat → DlResult
  | [] => ⟨false, 0, [], false⟩
  | a :: rest =>
    if stop a then ⟨false, 0, [], false⟩
    else if fetch a then ⟨true, 1, [], true⟩
    else
      let r := dl_attempts stop fetch maxRetries rest
      ⟨r.ok, r.attempts + 1,
        (if a < maxRetries - 1 then [1 * (a + 1)] else []) ++ r.sleeps,
        r.wrote⟩

/-- Embedding of `_download_and_save` (the repository's only call site
uses the default `max_retries=3`). -/
def download_and_save (stop fetch : Nat → Bool) (maxRetries : Nat) : DlResult :=
  dl_attempts stop fetch maxRetries (List.range maxRetries)

/-! ## Helper lemmas: decimal rendering -/

theorem dVal_digitChar {d : Nat} (h : d < 10) : dVal (digitChar d) = d := by
  interval_cases d <;> decide

theorem decValue_append_digit (xs : List Char) (c : Char) :
    decValue (xs ++ [c]) = 10 * decValue xs + dVal c := by
  unfold decValue
  rw [List.foldl_append]
  rfl

theorem decValue_natToDecimalAux :
    ∀ fuel n, n < fuel → decValue (natToDecimalAux fuel n) = n := by
  intro fuel
  induction fuel with
  | zero => intro n h; omega
  | succ f ih =>
    intro n h
    unfold natToDecimalAux
    by_cases h10 : n < 10
    · simp only [if_pos h10]
      unfold decValue
      simp [List.foldl, dVal_digitChar h10]
    · simp only [if_neg h10]
      have hdiv : n / 10 < f := by
        have h1 : n / 10 < n := Nat.div_lt_self (by omega) (by omega)
        omega
      rw [decValue_append_digit, ih _ hdiv, dVal_digitChar (Nat.mod_lt _ (by omega))]
      omega

theorem decValue_natToDecimal (n : Nat) : decValue (natToDecimal n) = n :=
  decValue_natToDecimalAux (n + 1) n (Nat.lt_succ_self n)

theorem natToDecimal_inj : Function.Injective natToDecimal := by
  intro a b h
  have := decValue_natToDecimal a
  rw [h, decValue_natToDecimal] at this
  omega

theorem natToDecimal_ne_nil (n : Nat) : natToDecimal n ≠ [] := by
  unfold natToDecimal natToDecimalAux
  by_cases h : n < 10
  · simp [h]
  · simp [h]

/-! ## Helper lemmas: stripping and sanitization -/

theorem dropWhile_eq_self_of_head {p : Char → Bool} {l : List Char}
    (h : ∀ c, l.head? = some c → p c = false) : l.dropWhile p = l := by
  cases l with
  | nil => rfl
  | cons c rest =>
    rw [List.dropWhile_cons, h c rfl]
    simp

theorem head?_dropWhile_not {p : Char → Bool} :
    ∀ {l : List Char} {c : Char}, (l.dropWhile p).head? = some c → p c = false := by
  intro l
  induction l with
  | nil => intro c h; simp [List.dropWhile] at h
  | cons x rest ih =>
    intro c h
    rw [List.dropWhile_cons] at h
    by_cases hx : p x
    · rw [if_pos hx] at h; exact ih h
    · rw [if_neg hx] at h
      simp only [List.head?] at h
      cases h
      simpa using hx

theorem mem_py_strip {p : Char → Bool} {l : List Char} {c : Char}
    (h : c ∈ py_strip p l) : c ∈ l := by
  unfold py_strip at h
  rw [List.mem_reverse] at h
  have h2 := (List.dropWhile_sublist p).subset h
  rw [List.mem_reverse] at h2
  exact (List.dropWhile_sublist p).subset h2

theorem py_strip_eq_self {p : Char → Bool} {l : List Char}
    (hh : ∀ c, l.head? = some c → p c = false)
    (hl : ∀ c, l.getLast? = some c → p c = false) :
    py_strip p l = l := by
  unfold py_strip
  rw [dropWhile_eq_self_of_head hh]
  rw [dropWhile_eq_self_of_head (by intro c h; rw [List.head?_reverse] at h; exact hl c h)]
  exact List.reverse_reverse l

theorem getLast?_dropWhile_of_ne_nil {p : Char → Bool} {x : List Char}
    (hne : x.dropWhile p ≠ []) : (x.dropWhile p).getLast? = x.getLast? := by
  have key : x.getLast? = (x.dropWhile p).getLast? := by
    conv_lhs => rw [← List.takeWhile_append_dropWhile p x]
    rw [List.getLast?_append]
    cases hgl : (x.dropWhile p).getLast? with
    | none => exact absurd (List.getLast?_eq_none_iff.mp hgl) hne
    | some v => rfl
  exact key.symm

theorem py_strip_head_not {p : Char → Bool} {l : List Char} {c : Char}
    (h : (py_strip p l).head? = some c) : p c = false := by
  unfold py_strip at h
  rw [List.head?_reverse] at h
  have hne : ((l.dropWhile p).reverse).dropWhile p ≠ [] := by
    intro hnil
    rw [hnil] at h
    simp at h
  rw [getLast?_dropWhile_of_ne_nil hne, List.getLast?_reverse] at h
  exact head?_dropWhile_not h

theorem map_eq_self_of {f : Char → Char} {l : List Char}
    (h : ∀ c ∈ l, f c = c) : l.map f = l := by
  induction l with
  | nil => rfl
  | cons c rest ih =>
    simp only [List.map_cons]
    rw [h c (List.mem_cons_self c rest), ih (fun x hx => h x (List.mem_cons_of_mem c hx))]

theorem subIllegal_not_illegal (c : Char) : isIllegalChar (subIllegal c) = false := by
  unfold subIllegal
  by_cases h : isIllegalChar c
  · rw [if_pos h]; decide
  · rw [if_neg h]; simpa using h

/-- Each character of a sanitized name is legal. -/
theorem get_safe_filename_no_illegal (s : List Char) :
    ∀ c ∈ get_safe_filename s, isIllegalChar c = false := by
  intro c hc
  unfold get_safe_filename orPlaceholder truncate100 at hc
  set n1 := py_strip isPySpace s with hn1
  set n2 := n1.map subIllegal with hn2
  set n3 := py_strip isDotSpace n2 with hn3
  have hmem_n2 : ∀ x ∈ n2, isIllegalChar x = false := by
    intro x hx
    rw [hn2, List.mem_map] at hx
    obtain ⟨y, _, hy⟩ := hx
    rw [← hy]
    exact subIllegal_not_illegal y
  have hmem_n3 : ∀ x ∈ n3, isIllegalChar x = false := fun x hx =>
    hmem_n2 x (mem_py_strip hx)
  by_cases htr : 100 < n3.length
  · simp only [if_pos htr] at hc
    by_cases hemp : (n3.take 97 ++ ['.', '.', '.']).isEmpty
    · rw [if_pos hemp] at hc
      fin_cases hc <;> decide
    · rw [if_neg hemp] at hc
      rcases List.mem_append.mp hc with h1 | h2
      · exact hmem_n3 c (List.take_subset 97 n3 h1)
      · fin_cases h2 <;> decide
  · simp only [if_neg htr] at hc
    by_cases hemp : n3.isEmpty
    · rw [if_pos hemp] at hc
      fin_cases hc <;> decide
    · rw [if_neg hemp] at hc
      exact hmem_n3 c hc

/-- A sanitized name is never empty. -/
theorem get_safe_filename_ne_nil (s : List Char) : get_safe_filename s ≠ [] := by
  unfold get_safe_filename orPlaceholder truncate100
  set n3 := py_strip isDotSpace ((py_strip isPySpace s).map subIllegal)
  by_cases htr : 100 < n3.length
  · simp only [if_pos htr]
    by_cases hemp : (n3.take 97 ++ ['.', '.', '.']).isEmpty
    · rw [if_pos hemp]; decide
    · rw [if_neg hemp]
      simp only [List.isEmpty_iff] at hemp
      exact hemp
  · simp only [if_neg htr]
    by_cases hemp : n3.isEmpty
    · rw [if_pos hemp]; decide
    · rw [if_neg hemp]
      simpa using hemp

theorem py_strip_getLast_not {p : Char → Bool} {l : List Char} {c : Char}
    (h : (py_strip p l).getLast? = some c) : p c = false := by
  unfold py_strip at h
  rw [List.getLast?_reverse] at h
  exact head?_dropWhile_not h

theorem isDotSpace_eq_false {c : Char} (h1 : isPySpace c = false)
    (h2 : c ≠ '.') : isDotSpace c = false := by
  have hsp : c ≠ ' ' := by
    intro he
    rw [he] at h1
    exact absurd h1 (by decide)
  simp [isDotSpace, h2, hsp]

/-- A list that is already stripped, free of illegal characters, short
enough and non-empty is a fixed point of the sanitizer. -/
theorem sanitize_fixed (r : List Char)
    (hne : r ≠ [])
    (hlen : r.length ≤ 100)
    (hill : ∀ c ∈ r, isIllegalChar c = false)
    (hh : ∀ c, r.head? = some c → isPySpace c = false ∧ isDotSpace c = false)
    (hl : ∀ c, r.getLast? = some c → isPySpace c = false ∧ isDotSpace c = false) :
    get_safe_filename r = r := by
  unfold get_safe_filename
  have h1 : py_strip isPySpace r = r :=
    py_strip_eq_self (fun c h => (hh c h).1) (fun c h => (hl c h).1)
  rw [h1]
  have h2 : r.map subIllegal = r :=
    map_eq_self_of (fun c hc => by simp [subIllegal, hill c hc])
  rw [h2]
  have h3 : py_strip isDotSpace r = r :=
    py_strip_eq_self (fun c h => (hh c h).2) (fun c h => (hl c h).2)
  rw [h3]
  unfold truncate100
  rw [if_neg (by omega)]
  unfold orPlaceholder
  rw [if_neg (by simp [hne])]

/-- Claim C2 fails on the code: sanitizing 101 `'a'`s truncates to 97
`'a'`s plus `"..."`, and a second application strips the trailing
periods, shortening the name to 97 characters. -/
theorem c2_counterexample :
    get_safe_filename (get_safe_filename (List.replicate 101 'a')) ≠
      get_safe_filename (List.replicate 101 'a') := by
  decide

/-- Claim C2 (amended): sanitization is idempotent on every input whose
sanitized result was not truncated (equivalently, does not end with a
period) and neither begins nor ends with a whitespace character; on
other inputs a second application can shorten the name further. -/
theorem c2_sanitize_idem (s : List Char)
    (hh : ((get_safe_filename s).head?.all fun c => !isPySpace c) = true)
    (hl : ((get_safe_filename s).getLast?.all
      fun c => !isPySpace c && !(c == '.')) = true) :
    get_safe_filename (get_safe_filename s) = get_safe_filename s := by
  have hHead : ∀ c, (get_safe_filename s).head? = some c → isPySpace c = false := by
    intro c h
    rw [h] at hh
    simpa using hh
  have hLast : ∀ c, (get_safe_filename s).getLast? = some c →
      isPySpace c = false ∧ c ≠ '.' := by
    intro c h
    rw [h] at hl
    simpa using hl
  set n3 := py_strip isDotSpace ((py_strip isPySpace s).map subIllegal) with hn3
  by_cases htr : 100 < n3.length
  · -- the truncated case contradicts `hl` (last character is a period)
    exfalso
    have hr : get_safe_filename s = n3.take 97 ++ ['.', '.', '.'] := by
      unfold get_safe_filename truncate100 orPlaceholder
      rw [← hn3, if_pos htr, if_neg (by simp)]
    have hlast : (get_safe_filename s).getLast? = some '.' := by
      rw [hr, List.getLast?_append]
      rfl
    exact (hLast '.' hlast).2 rfl
  · by_cases hemp : n3.isEmpty
    · -- empty result: both applications return the placeholder
      have hr : get_safe_filename s = placeholderName := by
        unfold get_safe_filename truncate100 orPlaceholder
        rw [← hn3, if_neg htr, if_pos hemp]
      rw [hr]
      decide
    · -- untruncated non-empty result: a fixed point of the sanitizer
      have hr : get_safe_filename s = n3 := by
        unfold get_safe_filename truncate100 orPlaceholder
        rw [← hn3, if_neg htr, if_neg hemp]
      rw [hr] at hHead hLast ⊢
      apply sanitize_fixed
      · simpa [List.isEmpty_iff] using hemp
      · omega
      · intro c hc
        have hc2 := mem_py_strip hc
        rw [List.mem_map] at hc2
        obtain ⟨y, _, hy⟩ := hc2
        rw [← hy]
        exact subIllegal_not_illegal y
      · intro c h
        refine ⟨hHead c h, ?_⟩
        exact py_strip_head_not (hn3 ▸ h)
      · intro c h
        have := hLast c h
        exact ⟨this.1, isDotSpace_eq_false this.1 this.2⟩

/-- Witness for the amended C2 at the concrete input `"ab"`. -/
theorem c2_witness :
    get_safe_filename (get_safe_filename ['a', 'b']) =
      get_safe_filename ['a', 'b'] :=
  c2_sanitize_idem ['a', 'b'] (by decide) (by decide)

/-! ## Helper lemmas: the spec-side trim equals Python's strip -/

theorem spec_trim_left_eq (p : Char → Bool) :
    ∀ l : List Char, spec_trim_left p l = l.dropWhile p := by
  intro l
  induction l with
  | nil => rfl
  | cons c rest ih =>
    unfold spec_trim_left
    rw [List.dropWhile_cons]
    by_cases h : p c
    · rw [if_pos h, if_pos h, ih]
    · rw [if_neg h, if_neg h]

theorem spec_trim_right_eq (p : Char → Bool) :
    ∀ l : List Char, spec_trim_right p l = (l.reverse.dropWhile p).reverse := by
  intro l
  induction l with
  | nil => rfl
  | cons c rest ih =>
    unfold spec_trim_right
    rw [List.reverse_cons, List.dropWhile_append]
    by_cases h : (rest.reverse.dropWhile p).isEmpty
    · rw [if_pos h]
      have hihe : spec_trim_right p rest = [] := by
        rw [ih]
        simp only [List.isEmpty_iff] at h
        rw [h]
        rfl
      by_cases hc : p c
      · simp [hihe, hc, List.dropWhile_cons]
      · simp [hihe, hc, List.dropWhile_cons]
    · rw [if_neg h]
      have hne : rest.reverse.dropWhile p ≠ [] := by
        simpa [List.isEmpty_iff] using h
      have hih : (spec_trim_right p rest).isEmpty = false := by
        rw [ih]
        simp only [← Bool.not_eq_true, List.isEmpty_iff, List.reverse_eq_nil_iff]
        exact hne
      simp only [hih, Bool.false_and, Bool.false_eq_true, if_false]
      rw [List.reverse_append, ih]
      rfl

theorem spec_trim_eq_py_strip (p : Char → Bool) (l : List Char) :
    spec_trim p l = py_strip p l := by
  unfold spec_trim py_strip
  rw [spec_trim_left_eq, spec_trim_right_eq]

theorem mem_illegalList (c : Char) : c ∈ illegalList ↔ isIllegalChar c = true := by
  simp only [illegalList, isIllegalChar, List.mem_cons, List.not_mem_nil, or_false,
    Bool.or_eq_true, beq_iff_eq]
  tauto

theorem spec_replace_eq (s : List Char) : spec_replace s = s.map subIllegal := by
  unfold spec_replace
  apply List.map_congr_left
  intro c _
  unfold subIllegal
  by_cases h : c ∈ illegalList
  · rw [if_pos h, if_pos ((mem_illegalList c).mp h)]
  · rw [if_neg h, if_neg (fun hc => h ((mem_illegalList c).mpr hc))]

/-- Claim C3 fails on the code at the input `"\t.a"`: the code strips
whitespace **before** replacing illegal characters (so the tab is
removed, not turned into `'_'`) and also strips **leading** periods,
giving `"a"`, while the rule as stated in the claim gives `"_.a"`. -/
theorem c3_counterexample :
    get_safe_filename ['\t', '.', 'a'] ≠ safe_filename_claimed ['\t', '.', 'a'] := by
  decide

/-- Claim C3 (amended): the sanitized filename is obtained by first
trimming leading/trailing whitespace, then replacing each of the
characters `\ / * ? : " < > |` and raw CR/LF/TAB with `'_'`, then
trimming leading **and** trailing periods and spaces, truncating any
result longer than 100 characters to exactly 100 characters ending in
a 3-character `"..."` marker, and substituting the canonical non-empty
placeholder when the result is empty — stated as the equality of the
source-derived sanitizer with the independently written spec-side
pipeline. -/
theorem c3_sanitize_rule (s : List Char) :
    get_safe_filename s = safe_filename_spec s := by
  unfold get_safe_filename safe_filename_spec
  rw [spec_trim_eq_py_strip, spec_replace_eq, spec_trim_eq_py_strip]
  unfold truncate100 orPlaceholder spec_truncate spec_finalize
  set n3 := py_strip isDotSpace ((py_strip isPySpace s).map subIllegal)
  by_cases htr : 100 < n3.length
  · rw [if_pos htr, if_pos htr]
    rw [if_neg (by simp), if_neg (by simp)]
    norm_num
    rfl
  · rw [if_neg htr, if_neg htr]
    by_cases hemp : n3.isEmpty
    · rw [if_pos hemp, if_pos (by simpa [List.isEmpty_iff, List.length_eq_zero] using hemp)]
      rfl
    · have hne : n3 ≠ [] := by simpa [List.isEmpty_iff] using hemp
      rw [if_neg hemp, if_neg (by simpa [List.length_eq_zero] using hne)]

/-! ## Helper lemmas: column-strategy counting -/

theorem col_step_counts (cfg : ColConfig) (st : ColState) (r : Row) :
    (col_step cfg st r).success =
      st.success + (if row_saves cfg r then 1 else 0) ∧
    (col_step cfg st r).failed =
      st.failed + (if row_fails cfg r then 1 else 0) ∧
    (col_step cfg st r).skipped =
      st.skipped + (if row_skips cfg r then 1 else 0) ∧
    (col_step cfg st r).counter =
      st.counter + (if row_saves cfg r then 1 else 0) := by
  unfold col_step row_skips row_fails row_saves embed_saves
  cases hexn : r.rowExn
  · cases hemb : (cfg.loader && r.hasEmbedded && r.embedOk)
    · cases hurl : get_url_from_cell r.imgCell
      · simp [hurl]
      · cases hdl : r.downloadOk <;> simp [hurl, hdl]
    · simp
  · simp

theorem col_step_no_save (cfg : ColConfig) (st : ColState) (r : Row)
    (h : row_saves cfg r = false) :
    (col_step cfg st r).counter = st.counter ∧
    (col_step cfg st r).savedCounters = st.savedCounters ∧
    (col_step cfg st r).savedNames = st.savedNames := by
  unfold col_step
  unfold row_saves embed_saves at h
  cases hexn : r.rowExn
  · rw [hexn] at h
    simp only [Bool.not_false, Bool.true_and] at h
    cases hemb : (cfg.loader && r.hasEmbedded && r.embedOk)
    · rw [hemb] at h
      simp only [Bool.false_or] at h
      unfold embed_saves
      rw [hemb]
      cases hurl : get_url_from_cell r.imgCell
      · simp [hurl]
      · rw [hurl] at h
        simp only [Option.isSome_some, Bool.true_and] at h
        simp [hurl, h]
    · rw [hemb] at h
      simp at h
  · simp [hexn]

theorem col_step_save (cfg : ColConfig) (st : ColState) (r : Row)
    (h : row_saves cfg r = true) :
    (col_step cfg st r).counter = st.counter + 1 ∧
    (col_step cfg st r).savedCounters = st.savedCounters ++ [st.counter] ∧
    (col_step cfg st r).savedNames =
      st.savedNames ++ [resolve_column_name cfg r st.counter] := by
  unfold col_step
  unfold row_saves embed_saves at h
  cases hexn : r.rowExn
  · rw [hexn] at h
    simp only [Bool.not_false, Bool.true_and] at h
    cases hemb : (cfg.loader && r.hasEmbedded && r.embedOk)
    · rw [hemb] at h
      simp only [Bool.false_or, Bool.and_eq_true, Option.isSome_iff_exists] at h
      obtain ⟨⟨u, hu⟩, hdl⟩ := h
      unfold embed_saves
      rw [hemb]
      simp [hu, hdl]
    · unfold embed_saves
      rw [hemb]
      simp [hexn]
  · rw [hexn] at h
    simp at h

theorem col_run_counts (cfg : ColConfig) :
    ∀ (rows : List Row) (st : ColState),
      (rows.foldl (col_step cfg) st).success =
        st.success + rows.countP (row_saves cfg) ∧
      (rows.foldl (col_step cfg) st).failed =
        st.failed + rows.countP (row_fails cfg) ∧
      (rows.foldl (col_step cfg) st).skipped =
        st.skipped + rows.countP (row_skips cfg) ∧
      (rows.foldl (col_step cfg) st).counter =
        st.counter + rows.countP (row_saves cfg) := by
  intro rows
  induction rows with
  | nil => intro st; simp [List.countP_nil]
  | cons r rest ih =>
    intro st
    simp only [List.foldl_cons, List.countP_cons]
    obtain ⟨h1, h2, h3, h4⟩ := ih (col_step cfg st r)
    obtain ⟨g1, g2, g3, g4⟩ := col_step_counts cfg st r
    refine ⟨?_, ?_, ?_, ?_⟩ <;> omega

theorem col_run_saved_counters (cfg : ColConfig) :
    ∀ (rows : List Row) (st : ColState),
      (rows.foldl (col_step cfg) st).savedCounters =
        st.savedCounters ++ List.range' st.counter (rows.countP (row_saves cfg)) := by
  intro rows
  induction rows with
  | nil => intro st; simp [List.countP_nil]
  | cons r rest ih =>
    intro st
    simp only [List.foldl_cons, List.countP_cons]
    cases hs : row_saves cfg r
    · obtain ⟨g1, g2, _⟩ := col_step_no_save cfg st r hs
      rw [ih (col_step cfg st r), g1, g2]
      simp
    · obtain ⟨g1, g2, _⟩ := col_step_save cfg st r hs
      rw [ih (col_step cfg st r), g1, g2]
      simp only [if_pos rfl, List.append_assoc]
      congr 1

/-- With no name column configured and a naming mode other than
LINK_TEXT, `_resolve_column_name` always falls through to
`_make_name`. -/
theorem resolve_fallback (cfg : ColConfig) (r : Row) (c : Nat)
    (hnc : cfg.nameCol = false) (hm : cfg.mode ≠ NamingMode.link) :
    resolve_column_name cfg r c = make_name cfg.naming cfg.mode c none := by
  unfold resolve_column_name
  rw [hnc, if_neg hm]
  simp

theorem col_run_saved_names (cfg : ColConfig)
    (hnc : cfg.nameCol = false) (hm : cfg.mode ≠ NamingMode.link) :
    ∀ (rows : List Row) (st : ColState),
      (rows.foldl (col_step cfg) st).savedNames =
        st.savedNames ++
          (List.range' st.counter (rows.countP (row_saves cfg))).map
            (fun c => make_name cfg.naming cfg.mode c none) := by
  intro rows
  induction rows with
  | nil => intro st; simp [List.countP_nil]
  | cons r rest ih =>
    intro st
    simp only [List.foldl_cons]
    cases hs : row_saves cfg r
    · rw [List.countP_cons_of_neg _ _ (by simp [hs])]
      obtain ⟨g1, _, g3⟩ := col_step_no_save cfg st r hs
      rw [ih (col_step cfg st r), g1, g3]
    · rw [List.countP_cons_of_pos _ _ hs]
      obtain ⟨g1, _, g3⟩ := col_step_save cfg st r hs
      rw [ih (col_step cfg st r), g1, g3]
      rw [List.range'_succ st.counter (rest.countP (row_saves cfg)) 1]
      simp only [List.map_cons, List.append_assoc]
      rw [resolve_fallback cfg r st.counter hnc hm]
      rfl

/-- Pointwise overlap of the failure and skip buckets: a row is counted
in both exactly when its URL download failed. -/
theorem row_fails_and_skips (cfg : ColConfig) (r : Row) :
    (row_fails cfg r && row_skips cfg r) = row_dlfail cfg r := by
  unfold row_dlfail row_skips row_fails row_saves embed_saves
  cases hexn : r.rowExn
  · cases hemb : (cfg.loader && r.hasEmbedded && r.embedOk)
    · cases hurl : get_url_from_cell r.imgCell
      · simp [hurl]
      · cases hdl : r.downloadOk <;> simp [hurl, hdl]
    · simp
  · simp

/-- Pointwise bucket count of one row: one bucket normally, two for a
failed download. -/
theorem row_bucket_sum (cfg : ColConfig) (r : Row) :
    (if row_saves cfg r then 1 else 0) + (if row_fails cfg r then 1 else 0) +
        (if row_skips cfg r then 1 else 0) =
      1 + (if row_dlfail cfg r then 1 else 0) := by
  unfold row_dlfail row_skips row_fails row_saves embed_saves
  cases hexn : r.rowExn
  · cases hemb : (cfg.loader && r.hasEmbedded && r.embedOk)
    · cases hurl : get_url_from_cell r.imgCell
      · simp [hurl]
      · cases hdl : r.downloadOk <;> simp [hurl, hdl]
    · simp
  · simp

theorem countP_bucket_sum (cfg : ColConfig) :
    ∀ rows : List Row,
      rows.countP (row_saves cfg) + rows.countP (row_fails cfg) +
          rows.countP (row_skips cfg) =
        rows.length + rows.countP (row_dlfail cfg) := by
  intro rows
  induction rows with
  | nil => simp [List.countP_nil]
  | cons r rest ih =>
    simp only [List.countP_cons, List.length_cons]
    have := row_bucket_sum cfg r
    omega

/-- Claim C1 fails on the code: a row whose cell yields a valid URL but
whose download fails is counted **both** as failed and as skipped —
running the column strategy on that single row yields
`failed = 1` and `skipped = 1`, so the three buckets sum to 2 for one
processed row instead of partitioning it. -/
theorem c1_counterexample :
    (col_run ⟨true, false, NamingMode.seq, ⟨[], [], []⟩⟩ 1
        [⟨none, ⟨none, none, some (("http://x/a.png").toList)⟩,
          false, false, false, false⟩]).success = 0 ∧
    (col_run ⟨true, false, NamingMode.seq, ⟨[], [], []⟩⟩ 1
        [⟨none, ⟨none, none, some (("http://x/a.png").toList)⟩,
          false, false, false, false⟩]).failed = 1 ∧
    (col_run ⟨true, false, NamingMode.seq, ⟨[], [], []⟩⟩ 1
        [⟨none, ⟨none, none, some (("http://x/a.png").toList)⟩,
          false, false, false, false⟩]).skipped = 1 := by
  decide

/-- Claim C1 (amended): in BY_COLUMN extraction every processed row is
counted in at least one of success, failed, skipped; a row whose cell
yields a valid URL but whose download fails after all retries is
counted as failed **and also** as skipped; all other rows are counted
exactly once, so the buckets sum to the number of processed rows plus
the number of failed downloads, and `skipped` counts exactly the rows
that produced no save. -/
theorem c1_by_column_counts (cfg : ColConfig) (start : Nat) (rows : List Row) :
    (col_run cfg start rows).success = rows.countP (row_saves cfg) ∧
    (col_run cfg start rows).failed = rows.countP (row_fails cfg) ∧
    (col_run cfg start rows).skipped = rows.countP (row_skips cfg) ∧
    (∀ r : Row, (row_fails cfg r && row_skips cfg r) = row_dlfail cfg r) ∧
    (col_run cfg start rows).success + (col_run cfg start rows).failed +
        (col_run cfg start rows).skipped =
      rows.length + rows.countP (row_dlfail cfg) := by
  unfold col_run
  obtain ⟨h1, h2, h3, _⟩ := col_run_counts cfg rows (initState start)
  rw [h1, h2, h3]
  have hsu : (initState start).success = 0 := rfl
  have hfa : (initState start).failed = 0 := rfl
  have hsk : (initState start).skipped = 0 := rfl
  rw [hsu, hfa, hsk]
  refine ⟨by omega, by omega, by omega, row_fails_and_skips cfg, ?_⟩
  have := countP_bucket_sum cfg rows
  omega

/-- Claim C10: when the embedded-image lookup capability is absent
(`image_loader` is `None`), the BY_COLUMN strategy still processes
every row: the counts are exactly those of a URL-only run (success =
rows with a URL and a successful download; failures only from
exceptions and failed downloads), and every exception-free row with no
`http://`/`https://` URL — in particular one holding only a
cell-anchored embedded image — is counted as skipped and not as
failed; the run ends in a summary state covering all rows. -/
theorem c10_no_loader (cfg : ColConfig) (start : Nat) (rows : List Row)
    (h : cfg.loader = false) :
    (col_run cfg start rows).success =
      rows.countP
        (fun r => !r.rowExn && ((get_url_from_cell r.imgCell).isSome && r.downloadOk)) ∧
    (col_run cfg start rows).failed =
      rows.countP
        (fun r => r.rowExn || ((get_url_from_cell r.imgCell).isSome && !r.downloadOk)) ∧
    (col_run cfg start rows).skipped =
      rows.countP
        (fun r => !r.rowExn && !((get_url_from_cell r.imgCell).isSome && r.downloadOk)) ∧
    (∀ r : Row, r.rowExn = false → get_url_from_cell r.imgCell = none →
      row_skips cfg r = true ∧ row_fails cfg r = false) := by
  unfold col_run
  obtain ⟨h1, h2, h3, _⟩ := col_run_counts cfg rows (initState start)
  rw [h1, h2, h3]
  have hsu : (initState start).success = 0 := rfl
  have hfa : (initState start).failed = 0 := rfl
  have hsk : (initState start).skipped = 0 := rfl
  rw [hsu, hfa, hsk]
  have hsave : ∀ r : Row, row_saves cfg r =
      (!r.rowExn && ((get_url_from_cell r.imgCell).isSome && r.downloadOk)) := by
    intro r
    unfold row_saves embed_saves
    rw [h]
    simp
  have hfail : ∀ r : Row, row_fails cfg r =
      (r.rowExn || ((get_url_from_cell r.imgCell).isSome && !r.downloadOk)) := by
    intro r
    unfold row_fails embed_saves
    rw [h]
    simp [Bool.and_assoc]
  have hskip : ∀ r : Row, row_skips cfg r =
      (!r.rowExn && !((get_url_from_cell r.imgCell).isSome && r.downloadOk)) := by
    intro r
    unfold row_skips
    rw [hsave r]
    cases hexn : r.rowExn <;> simp
  refine ⟨?_, ?_, ?_, ?_⟩
  · rw [Nat.zero_add]
    exact List.countP_congr (fun r _ => by rw [hsave r])
  · rw [Nat.zero_add]
    exact List.countP_congr (fun r _ => by rw [hfail r])
  · rw [Nat.zero_add]
    exact List.countP_congr (fun r _ => by rw [hskip r])
  · intro r hexn hurl
    constructor
    · rw [hskip r, hexn, hurl]
      simp
    · rw [hfail r, hexn, hurl]
      simp

/-- Witness for C10: one row carrying only an embedded image and no
URL, processed without the loader, is counted as skipped and nothing
is counted as failed. -/
theorem c10_witness :
    (col_run ⟨false, false, NamingMode.seq, ⟨[], [], []⟩⟩ 1
        [⟨none, ⟨none, none, none⟩, true, true, true, false⟩]).skipped = 1 ∧
    (col_run ⟨false, false, NamingMode.seq, ⟨[], [], []⟩⟩ 1
        [⟨none, ⟨none, none, none⟩, true, true, true, false⟩]).failed = 0 := by
  have h := c10_no_loader ⟨false, false, NamingMode.seq, ⟨[], [], []⟩⟩ 1
    [⟨none, ⟨none, none, none⟩, true, true, true, false⟩] rfl
  exact ⟨by rw [h.2.2.1]; decide, by rw [h.2.1]; decide⟩

/-! ## Helper lemmas: archive-strategy counting -/

theorem all_run_fields (cfg : NamingCfg) (mode : NamingMode) :
    ∀ (outcomes : List MediaOutcome) (st : AllState),
      (outcomes.foldl (all_step cfg mode) st).success =
        st.success + outcomes.countP isOk ∧
      (outcomes.foldl (all_step cfg mode) st).counter =
        st.counter + outcomes.countP isOk ∧
      (outcomes.foldl (all_step cfg mode) st).savedCounters =
        st.savedCounters ++ List.range' st.counter (outcomes.countP isOk) ∧
      (outcomes.foldl (all_step cfg mode) st).savedNames =
        st.savedNames ++
          (List.range' st.counter (outcomes.countP isOk)).map
            (fun c => make_name cfg mode c none) := by
  intro outcomes
  induction outcomes with
  | nil => intro st; simp [List.countP_nil]
  | cons o rest ih =>
    intro st
    simp only [List.foldl_cons]
    cases o with
    | ok =>
      rw [List.countP_cons_of_pos _ _ (by decide)]
      obtain ⟨i1, i2, i3, i4⟩ := ih (all_step cfg mode st MediaOutcome.ok)
      have g1 : (all_step cfg mode st MediaOutcome.ok).success = st.success + 1 := rfl
      have g2 : (all_step cfg mode st MediaOutcome.ok).counter = st.counter + 1 := rfl
      have g3 : (all_step cfg mode st MediaOutcome.ok).savedCounters =
        st.savedCounters ++ [st.counter] := rfl
      have g4 : (all_step cfg mode st MediaOutcome.ok).savedNames =
        st.savedNames ++ [make_name cfg mode st.counter none] := rfl
      rw [i1, i2, i3, i4, g1, g2, g3, g4]
      refine ⟨by omega, by omega, ?_, ?_⟩
      · rw [List.append_assoc, List.range'_succ st.counter (rest.countP isOk) 1]
        rfl
      · rw [List.append_assoc, List.range'_succ st.counter (rest.countP isOk) 1,
          List.map_cons]
        rfl
    | readErr =>
      rw [List.countP_cons_of_neg _ _ (by decide)]
      exact ih _
    | unsupported =>
      rw [List.countP_cons_of_neg _ _ (by decide)]
      exact ih _
    | saveErr =>
      rw [List.countP_cons_of_neg _ _ (by decide)]
      exact ih _

/-- Claim C4: in both strategies the naming counter starts at the
policy's start number and increments by exactly one on each successful
save and never otherwise, so the counters consumed by the `N`
successful saves of a run are exactly `start, start+1, …, start+N-1`
(no repeats, no gaps) regardless of interleaved failures or skips, and
the saved names are the policy's name sequence over those counters (in
BY_COLUMN mode whenever the names are policy-generated, i.e. no name
column is configured and the mode is not LINK_TEXT). -/
theorem c4_counter_sequence :
    (∀ (cfg : NamingCfg) (mode : NamingMode) (start : Nat)
        (outcomes : List MediaOutcome),
      (all_run cfg mode start outcomes).savedCounters =
        List.range' start (all_run cfg mode start outcomes).success ∧
      (all_run cfg mode start outcomes).savedNames =
        (List.range' start (all_run cfg mode start outcomes).success).map
          (fun c => make_name cfg mode c none) ∧
      (all_run cfg mode start outcomes).savedCounters.Nodup) ∧
    (∀ (cfg : ColConfig) (start : Nat) (rows : List Row),
      (col_run cfg start rows).savedCounters =
        List.range' start (col_run cfg start rows).success ∧
      (col_run cfg start rows).savedCounters.Nodup ∧
      (cfg.nameCol = false → cfg.mode ≠ NamingMode.link →
        (col_run cfg start rows).savedNames =
          (List.range' start (col_run cfg start rows).success).map
            (fun c => make_name cfg.naming cfg.mode c none))) := by
  constructor
  · intro cfg mode start outcomes
    unfold all_run
    obtain ⟨h1, _, h3, h4⟩ :=
      all_run_fields cfg mode outcomes ⟨0, 0, start, [], []⟩
    refine ⟨?_, ?_, ?_⟩
    · rw [h1, h3]
      simp
    · rw [h1, h4]
      simp
    · rw [h3]
      simp only [List.nil_append]
      exact List.nodup_range' _ _
  · intro cfg start rows
    unfold col_run
    obtain ⟨h1, _, _, _⟩ := col_run_counts cfg rows (initState start)
    have h2 := col_run_saved_counters cfg rows (initState start)
    have hsu : (initState start).success = 0 := rfl
    have hct : (initState start).counter = start := rfl
    have hsc : (initState start).savedCounters = [] := rfl
    have hsn : (initState start).savedNames = [] := rfl
    refine ⟨?_, ?_, ?_⟩
    · rw [h1, h2, hsu, hct, hsc]
      simp
    · rw [h2, hct, hsc]
      simp only [List.nil_append]
      exact List.nodup_range' _ _
    · intro hnc hm
      have h5 := col_run_saved_names cfg hnc hm rows (initState start)
      rw [h1, h5, hsu, hct, hsn]
      simp

/-- Witness for C4: a BY_COLUMN run (no name column, SEQUENTIAL mode)
with save–fail–save rows starting at counter 5 names the two saved
images `"5"` and `"6"`. -/
theorem c4_witness :
    (col_run ⟨true, false, NamingMode.seq, ⟨[], [], []⟩⟩ 5
        [⟨none, ⟨none, none, none⟩, true, true, true, false⟩,
         ⟨none, ⟨none, none, some (("http://x/a.png").toList)⟩,
           false, false, false, false⟩,
         ⟨none, ⟨none, none, none⟩, true, true, true, false⟩]).savedNames =
      [['5'], ['6']] := by
  have h := (c4_counter_sequence.2 ⟨true, false, NamingMode.seq, ⟨[], [], []⟩⟩ 5
    [⟨none, ⟨none, none, none⟩, true, true, true, false⟩,
     ⟨none, ⟨none, none, some (("http://x/a.png").toList)⟩,
       false, false, false, false⟩,
     ⟨none, ⟨none, none, none⟩, true, true, true, false⟩]).2.2 rfl (by decide)
  rw [h]
  decide

/-! ## Helper lemmas: the stable archive sort -/

theorem insLex_perm (x : Nat × List Char) :
    ∀ l : List (Nat × List Char), (insLex x l).Perm (x :: l) := by
  intro l
  induction l with
  | nil => exact List.Perm.refl _
  | cons y ys ih =>
    unfold insLex
    by_cases h : sort_key x.2 < sort_key y.2 ∨
        (sort_key x.2 = sort_key y.2 ∧ x.1 < y.1)
    · rw [if_pos h]
    · rw [if_neg h]
      exact (ih.cons y).trans (List.Perm.swap x y ys)

theorem isortLex_perm : ∀ l : List (Nat × List Char), (isortLex l).Perm l := by
  intro l
  induction l with
  | nil => exact List.Perm.refl _
  | cons x xs ih =>
    unfold isortLex
    exact (insLex_perm x (isortLex xs)).trans (ih.cons x)

theorem lexLe_of_not_lt {x y : Nat × List Char}
    (h : ¬(sort_key x.2 < sort_key y.2 ∨
      (sort_key x.2 = sort_key y.2 ∧ x.1 < y.1))) : lexLe y x := by
  unfold lexLe
  push_neg at h
  obtain ⟨h1, h2⟩ := h
  rcases Nat.lt_trichotomy (sort_key y.2) (sort_key x.2) with hlt | heq | hgt
  · exact Or.inl hlt
  · exact Or.inr ⟨heq, by omega⟩
  · omega

theorem lexLt_le_trans {x y z : Nat × List Char}
    (h1 : sort_key x.2 < sort_key y.2 ∨
      (sort_key x.2 = sort_key y.2 ∧ x.1 < y.1))
    (h2 : lexLe y z) : lexLe x z := by
  unfold lexLe at h2 ⊢
  rcases h1 with ha | ⟨ha, hb⟩ <;> rcases h2 with hc | ⟨hc, hd⟩
  · exact Or.inl (by omega)
  · exact Or.inl (by omega)
  · exact Or.inl (by omega)
  · exact Or.inr ⟨by omega, by omega⟩

theorem mem_insLex {x z : Nat × List Char} :
    ∀ {l : List (Nat × List Char)}, z ∈ insLex x l → z = x ∨ z ∈ l := by
  intro l
  induction l with
  | nil =>
    intro h
    unfold insLex at h
    rcases List.mem_cons.mp h with h | h
    · exact Or.inl h
    · exact Or.inr h
  | cons y ys ih =>
    intro h
    unfold insLex at h
    by_cases hc : sort_key x.2 < sort_key y.2 ∨
        (sort_key x.2 = sort_key y.2 ∧ x.1 < y.1)
    · rw [if_pos hc] at h
      rcases List.mem_cons.mp h with h | h
      · exact Or.inl h
      · exact Or.inr h
    · rw [if_neg hc] at h
      rcases List.mem_cons.mp h with h | h
      · exact Or.inr (h ▸ List.mem_cons_self y ys)
      · rcases ih h with h | h
        · exact Or.inl h
        · exact Or.inr (List.mem_cons_of_mem y h)

theorem insLex_pairwise {x : Nat × List Char} :
    ∀ {l : List (Nat × List Char)}, List.Pairwise lexLe l →
      List.Pairwise lexLe (insLex x l) := by
  intro l
  induction l with
  | nil => intro _; exact List.pairwise_singleton lexLe x
  | cons y ys ih =>
    intro hp
    rcases List.pairwise_cons.mp hp with ⟨hy, hys⟩
    unfold insLex
    by_cases hc : sort_key x.2 < sort_key y.2 ∨
        (sort_key x.2 = sort_key y.2 ∧ x.1 < y.1)
    · rw [if_pos hc]
      refine List.Pairwise.cons ?_ hp
      intro z hz
      rcases List.mem_cons.mp hz with h | h
      · rw [h]
        rcases hc with h1 | ⟨h1, h2⟩
        · exact Or.inl h1
        · exact Or.inr ⟨h1, Nat.le_of_lt h2⟩
      · exact lexLt_le_trans hc (hy z h)
    · rw [if_neg hc]
      refine List.Pairwise.cons ?_ (ih hys)
      intro z hz
      rcases mem_insLex hz with h | h
      · rw [h]
        exact lexLe_of_not_lt hc
      · exact hy z h

theorem isortLex_pairwise :
    ∀ l : List (Nat × List Char), List.Pairwise lexLe (isortLex l) := by
  intro l
  induction l with
  | nil => exact List.Pairwise.nil
  | cons x xs ih =>
    unfold isortLex
    exact insLex_pairwise ih

/-- Claim C5: the archive strategy processes media members in
ascending order of `_sort_key` (the last maximal digit run of the
path, 0 when no digits), stably: the sorted enumeration is a
permutation of the input that is pairwise ordered by key with ties in
original position order, and on the spec's example
`image3.png, image10.png, image1.png` the processing order is
`image1.png, image3.png, image10.png` (numeric, not lexical). -/
theorem c5_archive_order :
    (∀ files : List (List Char), (sortMedia files).Perm files) ∧
    (∀ files : List (List Char), List.Pairwise lexLe (isortLex files.enum)) ∧
    sortMedia
        [("image3.png").toList, ("image10.png").toList, ("image1.png").toList] =
      [("image1.png").toList, ("image3.png").toList, ("image10.png").toList] := by
  refine ⟨?_, ?_, ?_⟩
  · intro files
    unfold sortMedia
    have h := (isortLex_perm files.enum).map Prod.snd
    rw [List.enum_map_snd] at h
    exact h
  · intro files
    exact isortLex_pairwise _
  · decide

/-! ## Helper lemmas: unique path allocation -/

theorem cand_inj (dir name fmt : List Char) :
    Function.Injective (cand dir name fmt) := by
  intro k1 k2 h
  unfold cand mkPath mkFile at h
  have h1 := List.cons_injective (List.append_cancel_left h)
  have h2 := List.append_cancel_right h1
  have h3 := List.cons_injective (List.append_cancel_left h2)
  exact natToDecimal_inj h3

theorem uniq_loop_finds (ex : List (List Char)) (dir name fmt : List Char) :
    ∀ fuel k : Nat,
      (∃ j, k ≤ j ∧ j < k + fuel ∧ cand dir name fmt j ∉ ex) →
      ∃ j, k ≤ j ∧ uniq_loop ex dir name fmt fuel k = cand dir name fmt j ∧
        cand dir name fmt j ∉ ex ∧
        ∀ i, k ≤ i → i < j → cand dir name fmt i ∈ ex := by
  intro fuel
  induction fuel with
  | zero =>
    intro k h
    obtain ⟨j, h1, h2, _⟩ := h
    omega
  | succ f ih =>
    intro k h
    obtain ⟨j, h1, h2, h3⟩ := h
    unfold uniq_loop
    by_cases hk : cand dir name fmt k ∈ ex
    · rw [if_pos hk]
      have hjk : j ≠ k := by
        intro he
        rw [he] at h3
        exact h3 hk
      obtain ⟨j', hj1, hj2, hj3, hj4⟩ := ih (k + 1) ⟨j, by omega, by omega, h3⟩
      refine ⟨j', by omega, hj2, hj3, ?_⟩
      intro i hi1 hi2
      rcases Nat.eq_or_lt_of_le hi1 with he | hlt
      · rw [← he]
        exact hk
      · exact hj4 i (by omega) hi2
    · rw [if_neg hk]
      exact ⟨k, Nat.le_refl k, rfl, hk, fun i hi1 hi2 => by omega⟩

theorem cand_free_exists (ex : List (List Char)) (dir name fmt : List Char) :
    ∃ j, 1 ≤ j ∧ j < 1 + (ex.length + 1) ∧ cand dir name fmt j ∉ ex := by
  by_contra hcon
  push_neg at hcon
  have hsub : ((List.range' 1 (ex.length + 1)).map (cand dir name fmt)) ⊆ ex := by
    intro p hp
    rw [List.mem_map] at hp
    obtain ⟨j, hj, rfl⟩ := hp
    obtain ⟨hj1, hj2⟩ := List.mem_range'_1.mp hj
    exact hcon j hj1 (by omega)
  have hnd : ((List.range' 1 (ex.length + 1)).map (cand dir name fmt)).Nodup :=
    List.Nodup.map (cand_inj dir name fmt) (List.nodup_range' _ _)
  have hlen := (hnd.subperm hsub).length_le
  rw [List.length_map, List.length_range'] at hlen
  omega

/-- Claim C6: the unique path allocator returns `dir/name.fmt` when
that path does not exist, and otherwise the first of
`dir/name_1.fmt, dir/name_2.fmt, …` that does not exist; in all cases
the returned path is none of the pre-existing paths `ex`. -/
theorem c6_unique_path (ex : List (List Char)) (dir name fmt : List Char) :
    (mkPath dir (mkFile name fmt) ∉ ex →
      get_unique_path ex dir name fmt = mkPath dir (mkFile name fmt)) ∧
    (mkPath dir (mkFile name fmt) ∈ ex →
      ∃ k, 1 ≤ k ∧ get_unique_path ex dir name fmt = cand dir name fmt k ∧
        cand dir name fmt k ∉ ex ∧
        ∀ i, 1 ≤ i → i < k → cand dir name fmt i ∈ ex) ∧
    get_unique_path ex dir name fmt ∉ ex := by
  have hfree := cand_free_exists ex dir name fmt
  refine ⟨?_, ?_, ?_⟩
  · intro h
    unfold get_unique_path
    rw [if_neg h]
  · intro h
    unfold get_unique_path
    rw [if_pos h]
    exact uniq_loop_finds ex dir name fmt (ex.length + 1) 1 hfree
  · unfold get_unique_path
    by_cases h : mkPath dir (mkFile name fmt) ∈ ex
    · rw [if_pos h]
      obtain ⟨j, _, h2, h3, _⟩ :=
        uniq_loop_finds ex dir name fmt (ex.length + 1) 1 hfree
      rw [h2]
      exact h3
    · rw [if_neg h]
      exact h

/-- Witness for C6: with `out/foo.png` and `out/foo_1.png` already
present, the allocator yields the first free suffixed candidate. -/
theorem c6_witness :
    ∃ k, 1 ≤ k ∧
      get_unique_path
          [mkPath (("out").toList) (mkFile (("foo").toList) (("png").toList)),
           cand (("out").toList) (("foo").toList) (("png").toList) 1]
          (("out").toList) (("foo").toList) (("png").toList) =
        cand (("out").toList) (("foo").toList) (("png").toList) k ∧
      cand (("out").toList) (("foo").toList) (("png").toList) k ∉
        [mkPath (("out").toList) (mkFile (("foo").toList) (("png").toList)),
         cand (("out").toList) (("foo").toList) (("png").toList) 1] ∧
      ∀ i, 1 ≤ i → i < k →
        cand (("out").toList) (("foo").toList) (("png").toList) i ∈
          [mkPath (("out").toList) (mkFile (("foo").toList) (("png").toList)),
           cand (("out").toList) (("foo").toList) (("png").toList) 1] :=
  (c6_unique_path _ _ _ _).2.1 (by decide)

/-- Claim C7: with the default `max_retries=3` the downloader makes at
most 3 attempts; the cancellation flag is read before each attempt and
aborts with a returned failure (no exception, nothing written); after
a failed attempt that is not the last it sleeps `1s * attempt_number`
(so attempts 1 and 2 sleep 1s and 2s, and full exhaustion backs off
1s+2s = 3s in total); the first attempt whose fetch/decode succeeds
returns success with the file written; and exhausting all three
attempts returns failure with no file written. -/
theorem c7_download_retries (stop fetch : Nat → Bool) :
    (download_and_save stop fetch 3).attempts ≤ 3 ∧
    (stop 0 = true →
      download_and_save stop fetch 3 = ⟨false, 0, [], false⟩) ∧
    (stop 0 = false → fetch 0 = true →
      download_and_save stop fetch 3 = ⟨true, 1, [], true⟩) ∧
    (stop 0 = false → fetch 0 = false → stop 1 = true →
      download_and_save stop fetch 3 = ⟨false, 1, [1], false⟩) ∧
    (stop 0 = false → fetch 0 = false → stop 1 = false → fetch 1 = true →
      download_and_save stop fetch 3 = ⟨true, 2, [1], true⟩) ∧
    (stop 0 = false → fetch 0 = false → stop 1 = false → fetch 1 = false →
      stop 2 = true →
      download_and_save stop fetch 3 = ⟨false, 2, [1, 2], false⟩) ∧
    (stop 0 = false → fetch 0 = false → stop 1 = false → fetch 1 = false →
      stop 2 = false → fetch 2 = true →
      download_and_save stop fetch 3 = ⟨true, 3, [1, 2], true⟩) ∧
    (stop 0 = false → fetch 0 = false → stop 1 = false → fetch 1 = false →
      stop 2 = false → fetch 2 = false →
      download_and_save stop fetch 3 = ⟨false, 3, [1, 2], false⟩ ∧
        (download_and_save stop fetch 3).sleeps.sum = 3) := by
  have hr : List.range 3 = [0, 1, 2] := rfl
  unfold download_and_save
  rw [hr]
  refine ⟨?_, ?_, ?_, ?_, ?_, ?_, ?_, ?_⟩
  · cases h0 : stop 0 <;> cases g0 : fetch 0 <;> cases h1 : stop 1 <;>
      cases g1 : fetch 1 <;> cases h2 : stop 2 <;> cases g2 : fetch 2 <;>
      simp [dl_attempts, h0, g0, h1, g1, h2, g2]
  · intro h0
    simp [dl_attempts, h0]
  · intro h0 g0
    simp [dl_attempts, h0, g0]
  · intro h0 g0 h1
    simp [dl_attempts, h0, g0, h1]
  · intro h0 g0 h1 g1
    simp [dl_attempts, h0, g0, h1, g1]
  · intro h0 g0 h1 g1 h2
    simp [dl_attempts, h0, g0, h1, g1, h2]
  · intro h0 g0 h1 g1 h2 g2
    simp [dl_attempts, h0, g0, h1, g1, h2, g2]
  · intro h0 g0 h1 g1 h2 g2
    refine ⟨?_, ?_⟩ <;> simp [dl_attempts, h0, g0, h1, g1, h2, g2]

/-- Witness for C7: oracles that never cancel and always fail exhaust
the three attempts with backoff sleeps of 1s and 2s and write no
file. -/
theorem c7_witness :
    download_and_save (fun _ => false) (fun _ => false) 3 =
        ⟨false, 3, [1, 2], false⟩ ∧
      (download_and_save (fun _ => false) (fun _ => false) 3).sleeps.sum = 3 :=
  (c7_download_retries (fun _ => false) (fun _ => false)).2.2.2.2.2.2.2
    rfl rfl rfl rfl rfl rfl

/-! ## Helper lemmas: template substitution -/

theorem natToDecimalAux_digits :
    ∀ fuel n, ∀ c ∈ natToDecimalAux fuel n, c.isDigit = true := by
  intro fuel
  induction fuel with
  | zero => intro n c hc; simp [natToDecimalAux] at hc
  | succ f ih =>
    intro n c hc
    unfold natToDecimalAux at hc
    by_cases h10 : n < 10
    · rw [if_pos h10] at hc
      rcases List.mem_cons.mp hc with h | h
      · rw [h]
        interval_cases n <;> decide
      · simp at h
    · rw [if_neg h10] at hc
      rcases List.mem_append.mp hc with h | h
      · exact ih _ c h
      · rcases List.mem_cons.mp h with h | h
        · rw [h]
          have := Nat.mod_lt n (show 0 < 10 by omega)
          interval_cases hm : (n % 10) <;> decide
        · simp at h

theorem natToDecimal_digits (n : Nat) :
    ∀ c ∈ natToDecimal n, c.isDigit = true :=
  natToDecimalAux_digits (n + 1) n

theorem brace_not_mem_natToDecimal (n : Nat) : '{' ∉ natToDecimal n := by
  intro h
  exact absurd (natToDecimal_digits n '{' h) (by decide)

theorem letter_n_not_mem_natToDecimal (n : Nat) : 'n' ∉ natToDecimal n := by
  intro h
  exact absurd (natToDecimal_digits n 'n' h) (by decide)

theorem close_brace_not_mem_natToDecimal (n : Nat) : '}' ∉ natToDecimal n := by
  intro h
  exact absurd (natToDecimal_digits n '}' h) (by decide)

theorem replaceNAux_no_pat (r : List Char) :
    ∀ tpl : List Char, occursPat tpl = false →
      ∀ fuel, replaceNAux r fuel tpl = tpl := by
  intro tpl
  induction tpl with
  | nil =>
    intro _ fuel
    cases fuel <;> rfl
  | cons c rest ih =>
    intro h fuel
    unfold occursPat at h
    rw [Bool.or_eq_false_iff] at h
    obtain ⟨h1, h2⟩ := h
    cases fuel with
    | zero => rfl
    | succ f =>
      unfold replaceNAux
      rw [if_neg (by rw [h1]; exact Bool.false_ne_true)]
      rw [ih h2 f]

theorem replaceNAux_ne_nil (r : List Char) (hr : r ≠ []) :
    ∀ (fuel : Nat) (tpl : List Char), tpl ≠ [] →
      replaceNAux r fuel tpl ≠ [] := by
  intro fuel tpl ht
  cases tpl with
  | nil => exact absurd rfl ht
  | cons c rest =>
    cases fuel with
    | zero => exact ht
    | succ f =>
      unfold replaceNAux
      by_cases hcond : (c == '{' && rest.take 2 == ['n', '}']) = true
      · rw [if_pos hcond]
        cases hr2 : r with
        | nil => exact absurd hr2 hr
        | cons a as => simp
      · rw [if_neg hcond]
        simp

theorem replaceNAux_head (r : List Char) (hr : r ≠ [])
    (hn : 'n' ∉ r) (hb : '}' ∉ r) :
    ∀ (fuel : Nat) (tpl : List Char) (c : Char), c = 'n' ∨ c = '}' →
      (replaceNAux r fuel tpl).head? = some c → tpl.head? = some c := by
  intro fuel tpl c hc h
  cases tpl with
  | nil =>
    cases fuel <;> simp [replaceNAux] at h
  | cons d rest =>
    cases fuel with
    | zero => exact h
    | succ f =>
      unfold replaceNAux at h
      by_cases hcond : (d == '{' && rest.take 2 == ['n', '}']) = true
      · rw [if_pos hcond] at h
        exfalso
        cases hr2 : r with
        | nil => exact hr hr2
        | cons a as =>
          rw [hr2] at h
          simp only [List.cons_append, List.head?] at h
          have ha : a = c := by
            injection h
          rcases hc with hc | hc
          · exact hn (by rw [hr2, ha, hc]; exact List.mem_cons_self _ _)
          · exact hb (by rw [hr2, ha, hc]; exact List.mem_cons_self _ _)
      · rw [if_neg hcond] at h
        exact h

theorem occursPat_append_no_brace :
    ∀ a b : List Char, '{' ∉ a → occursPat (a ++ b) = occursPat b := by
  intro a
  induction a with
  | nil => intro b _; rfl
  | cons x xs ih =>
    intro b hx
    have hxne : x ≠ '{' := fun he => hx (he ▸ List.mem_cons_self x xs)
    have hxs : '{' ∉ xs := fun hm => hx (List.mem_cons_of_mem x hm)
    have hxf : (x == '{') = false := by
      rw [beq_eq_false_iff_ne]
      exact hxne
    rw [List.cons_append]
    have heq : occursPat (x :: (xs ++ b)) =
        ((x == '{' && (xs ++ b).take 2 == ['n', '}']) || occursPat (xs ++ b)) := rfl
    rw [heq, ih b hxs, hxf]
    simp

theorem take_two_head {l : List Char} {a b : Char} (h : l.take 2 = [a, b]) :
    l.head? = some a := by
  cases l with
  | nil => simp at h
  | cons x xs =>
    simp only [List.take_succ_cons] at h
    have := (List.cons.injEq _ _ _ _).mp h
    rw [this.1]
    rfl

theorem take_one_head {l : List Char} {a : Char} (h : l.take 1 = [a]) :
    l.head? = some a := by
  cases l with
  | nil => simp at h
  | cons x xs =>
    simp only [List.take_succ_cons, List.take_zero] at h
    have := (List.cons.injEq _ _ _ _).mp h
    rw [this.1]
    rfl

theorem occursPat_replaceNAux (r : List Char) (hr : r ≠ [])
    (h1 : '{' ∉ r) (hn : 'n' ∉ r) (hb : '}' ∉ r) :
    ∀ fuel tpl, tpl.length ≤ fuel →
      occursPat (replaceNAux r fuel tpl) = false := by
  intro fuel
  induction fuel with
  | zero =>
    intro tpl hlen
    have : tpl = [] := by
      cases tpl with
      | nil => rfl
      | cons c rest => simp at hlen
    rw [this]
    rfl
  | succ f ih =>
    intro tpl hlen
    cases tpl with
    | nil => rfl
    | cons d rest =>
      simp only [List.length_cons] at hlen
      unfold replaceNAux
      by_cases hcond : (d == '{' && rest.take 2 == ['n', '}']) = true
      · rw [if_pos hcond]
        rw [occursPat_append_no_brace _ _ h1]
        exact ih (rest.drop 2) (by rw [List.length_drop]; omega)
      · rw [if_neg hcond]
        unfold occursPat
        rw [ih rest (by omega)]
        rw [Bool.or_false]
        by_cases hd : d = '{'
        · rw [Bool.and_eq_false_iff]
          right
          rw [beq_eq_false_iff_ne]
          intro htake
          -- the first two characters of the substituted tail force the
          -- unsubstituted tail to start with `n}`, contradicting `hcond`
          have hhead : (replaceNAux r f rest).head? = some 'n' :=
            take_two_head htake
          have hresthead : rest.head? = some 'n' :=
            replaceNAux_head r hr hn hb f rest 'n' (Or.inl rfl) hhead
          cases rest with
          | nil => simp at hresthead
          | cons e rest2 =>
            have he : e = 'n' := by
              simp only [List.head?] at hresthead
              injection hresthead
            subst he
            cases f with
            | zero => simp at hlen
            | succ f2 =>
              have hstep : replaceNAux r (f2 + 1) ('n' :: rest2) =
                  'n' :: replaceNAux r f2 rest2 := by
                have hc2 : (('n' : Char) == '{' && rest2.take 2 == ['n', '}']) = false := by
                  simp
                simp [replaceNAux, hc2]
              rw [hstep] at htake
              simp only [List.take_succ_cons] at htake
              have h2 := (List.cons.injEq _ _ _ _).mp htake
              have hhd2 : (replaceNAux r f2 rest2).head? = some '}' :=
                take_one_head h2.2
              have hrest2 : rest2.head? = some '}' :=
                replaceNAux_head r hr hn hb f2 rest2 '}' (Or.inr rfl) hhd2
              cases rest2 with
              | nil => simp at hrest2
              | cons g rest3 =>
                have hg : g = '}' := by
                  simp only [List.head?] at hrest2
                  injection hrest2
                subst hg
                rw [hd] at hcond
                simp at hcond
        · rw [Bool.and_eq_false_iff]
          left
          rw [beq_eq_false_iff_ne]
          exact hd

theorem occursPat_replaceN_digits (counter : Nat) (tpl : List Char) :
    occursPat (replaceN (natToDecimal counter) tpl) = false :=
  occursPat_replaceNAux (natToDecimal counter) (natToDecimal_ne_nil counter)
    (brace_not_mem_natToDecimal counter) (letter_n_not_mem_natToDecimal counter)
    (close_brace_not_mem_natToDecimal counter) tpl.length tpl (Nat.le_refl _)

theorem mem_replaceNAux (r : List Char) {ch : Char}
    (hbr : ch ≠ '{') (hnn : ch ≠ 'n') (hcb : ch ≠ '}') :
    ∀ (fuel : Nat) (tpl : List Char), ch ∈ tpl →
      ch ∈ replaceNAux r fuel tpl := by
  intro fuel
  induction fuel with
  | zero =>
    intro tpl hm
    cases tpl with
    | nil => simp at hm
    | cons c rest => exact hm
  | succ f ih =>
    intro tpl hm
    cases tpl with
    | nil => simp at hm
    | cons d rest =>
      unfold replaceNAux
      by_cases hcond : (d == '{' && rest.take 2 == ['n', '}']) = true
      · rw [if_pos hcond]
        rw [Bool.and_eq_true, beq_iff_eq, beq_iff_eq] at hcond
        obtain ⟨hd, htake⟩ := hcond
        have hm2 : ch ∈ rest := by
          rcases List.mem_cons.mp hm with h | h
          · exact absurd (h.trans hd) hbr
          · exact h
        have hm3 : ch ∈ rest.drop 2 := by
          have hsplit := List.take_append_drop 2 rest
          rcases List.mem_append.mp (hsplit ▸ hm2) with h | h
          · rw [htake] at h
            rcases List.mem_cons.mp h with h | h
            · exact absurd h hnn
            · rcases List.mem_cons.mp h with h | h
              · exact absurd h hcb
              · simp at h
          · exact h
        exact List.mem_append_right r (ih _ hm3)
      · rw [if_neg hcond]
        rcases List.mem_cons.mp hm with h | h
        · rw [h]
          exact List.mem_cons_self d _
        · exact List.mem_cons_of_mem d (ih _ h)

/-- Claim C8 fails on the code for the TEMPLATE policy with an empty
template: the claim requires the template to be returned unchanged
when it omits `{n}` (so the empty template would yield the empty
name), but the code first substitutes the default template
`"img_{n}"`, producing `"img_1"`. -/
theorem c8_counterexample :
    make_name ⟨[], [], []⟩ NamingMode.regex 1 none = ("img_1").toList ∧
    make_name ⟨[], [], []⟩ NamingMode.regex 1 none ≠ [] := by
  constructor
  · decide
  · decide

/-- Claim C8 (amended): the naming resolver always returns a non-empty
base name; SEQUENTIAL yields the counter in decimal; PREFIXED yields
prefix++separator++counter with the placeholder `"Image"` substituted
for an empty prefix; TEMPLATE first replaces an **empty** template by
the default `"img_{n}"` and then substitutes the counter for every
literal `{n}` (so no `{n}` survives), returning a non-empty template
unchanged when it omits `{n}`; LINK_TEXT with absent or
whitespace-only link text falls back to the SEQUENTIAL name for the
same counter. -/
theorem c8_make_name (cfg : NamingCfg) (counter : Nat)
    (link : Option (List Char)) :
    (∀ mode : NamingMode, make_name cfg mode counter link ≠ []) ∧
    make_name cfg NamingMode.seq counter link = natToDecimal counter ∧
    (cfg.pfxText ≠ [] →
      make_name cfg NamingMode.pfx counter link =
        cfg.pfxText ++ cfg.sepText ++ natToDecimal counter) ∧
    (cfg.pfxText = [] →
      make_name cfg NamingMode.pfx counter link =
        defaultStem ++ cfg.sepText ++ natToDecimal counter) ∧
    (cfg.tplText ≠ [] → occursPat cfg.tplText = false →
      make_name cfg NamingMode.regex counter link = cfg.tplText) ∧
    (cfg.tplText = [] →
      make_name cfg NamingMode.regex counter link =
        replaceN (natToDecimal counter) defaultTpl) ∧
    occursPat (make_name cfg NamingMode.regex counter link) = false ∧
    (link = none →
      make_name cfg NamingMode.link counter link = natToDecimal counter) ∧
    (∀ t, link = some t → py_strip isPySpace t = [] →
      make_name cfg NamingMode.link counter link = natToDecimal counter) := by
  refine ⟨?_, rfl, ?_, ?_, ?_, ?_, ?_, ?_, ?_⟩
  · intro mode
    cases mode with
    | seq => exact natToDecimal_ne_nil counter
    | pfx =>
      simp only [make_name]
      intro h
      rcases List.append_eq_nil.mp h with ⟨h1, h2⟩
      exact natToDecimal_ne_nil counter h2
    | link =>
      cases link with
      | none => exact natToDecimal_ne_nil counter
      | some t =>
        by_cases hs : (py_strip isPySpace t).isEmpty
        · have he : make_name cfg NamingMode.link counter (some t) =
              natToDecimal counter := by
            simp [make_name, hs]
          rw [he]
          exact natToDecimal_ne_nil counter
        · have he : make_name cfg NamingMode.link counter (some t) =
              get_safe_filename t := by
            simp [make_name, hs]
          rw [he]
          exact get_safe_filename_ne_nil t
    | regex =>
      simp only [make_name, replaceN]
      by_cases ht : cfg.tplText.isEmpty
      · rw [if_pos ht]
        exact replaceNAux_ne_nil _ (natToDecimal_ne_nil counter) _ _ (by decide)
      · rw [if_neg ht]
        exact replaceNAux_ne_nil _ (natToDecimal_ne_nil counter) _ _
          (by simpa [List.isEmpty_iff] using ht)
  · intro h
    simp only [make_name]
    rw [if_neg (by simpa [List.isEmpty_iff] using h), List.append_assoc]
  · intro h
    simp only [make_name]
    rw [if_pos (by simpa [List.isEmpty_iff] using h), List.append_assoc]
  · intro h1 h2
    simp only [make_name, replaceN]
    rw [if_neg (by simpa [List.isEmpty_iff] using h1)]
    exact replaceNAux_no_pat _ _ h2 _
  · intro h
    simp only [make_name, replaceN]
    rw [if_pos (by simpa [List.isEmpty_iff] using h)]
  · simp only [make_name]
    by_cases ht : cfg.tplText.isEmpty
    · rw [if_pos ht]
      exact occursPat_replaceN_digits counter defaultTpl
    · rw [if_neg ht]
      exact occursPat_replaceN_digits counter cfg.tplText
  · intro h
    rw [h]
    simp [make_name]
  · intro t h hs
    rw [h]
    simp [make_name, hs]

/-- Witness for the amended C8: a non-empty template without `{n}` is
returned unchanged. -/
theorem c8_witness :
    make_name ⟨[], [], ['x']⟩ NamingMode.regex 7 none = ['x'] :=
  (c8_make_name ⟨[], [], ['x']⟩ 7 none).2.2.2.2.1 (by decide) (by decide)

/-- Claim C9: PREFIXED and TEMPLATE base names are not sanitized —
the user-supplied prefix and separator appear verbatim in the result
and every filename-illegal character of the template survives
substitution — while the name-column branch of
`_resolve_column_name`, and LINK_TEXT names, pass through
`get_safe_filename`, whose output never contains an illegal
character. -/
theorem c9_no_sanitize :
    (∀ (cfg : NamingCfg) (c : Nat) (ch : Char), cfg.pfxText ≠ [] →
      ch ∈ cfg.pfxText ++ cfg.sepText →
      ch ∈ make_name cfg NamingMode.pfx c none) ∧
    (∀ (cfg : NamingCfg) (c : Nat) (ch : Char), isIllegalChar ch = true →
      ch ∈ cfg.tplText →
      ch ∈ make_name cfg NamingMode.regex c none) ∧
    (∀ (cfg : ColConfig) (r : Row) (c : Nat) (v : List Char),
      cfg.nameCol = true → r.nameCellValue = some v →
      py_strip isPySpace v ≠ [] → startsHttp (py_strip isPySpace v) = false →
      resolve_column_name cfg r c = get_safe_filename (py_strip isPySpace v)) ∧
    (∀ (cfg : NamingCfg) (c : Nat) (t : List Char), py_strip isPySpace t ≠ [] →
      make_name cfg NamingMode.link c (some t) = get_safe_filename t) ∧
    (∀ (s : List Char) (ch : Char), ch ∈ get_safe_filename s →
      isIllegalChar ch = false) := by
  refine ⟨?_, ?_, ?_, ?_, ?_⟩
  · intro cfg c ch hne hm
    simp only [make_name]
    rw [if_neg (by simpa [List.isEmpty_iff] using hne)]
    rcases List.mem_append.mp hm with h | h
    · exact List.mem_append_left _ (List.mem_append_left _ h)
    · exact List.mem_append_left _ (List.mem_append_right _ h)
  · intro cfg c ch hill hm
    have hne : cfg.tplText ≠ [] := by
      intro he
      rw [he] at hm
      simp at hm
    simp only [make_name, replaceN]
    rw [if_neg (by simpa [List.isEmpty_iff] using hne)]
    have hbr : ch ≠ '{' := by
      intro he
      rw [he] at hill
      exact absurd hill (by decide)
    have hnn : ch ≠ 'n' := by
      intro he
      rw [he] at hill
      exact absurd hill (by decide)
    have hcb : ch ≠ '}' := by
      intro he
      rw [he] at hill
      exact absurd hill (by decide)
    exact mem_replaceNAux _ hbr hnn hcb _ _ hm
  · intro cfg r c v hnc hv hne hurl
    simp [resolve_column_name, hnc, hv, List.isEmpty_iff, hne, hurl]
  · intro cfg c t hne
    simp [make_name, List.isEmpty_iff, hne]
  · intro s ch h
    exact get_safe_filename_no_illegal s ch h

/-- Witness for C9: an illegal `'*'` in the prefix appears verbatim in
the PREFIXED base name. -/
theorem c9_witness :
    '*' ∈ make_name ⟨("a*b").toList, ['_'], []⟩ NamingMode.pfx 1 none :=
  c9_no_sanitize.1 ⟨("a*b").toList, ['_'], []⟩ 1 '*' (by decide) (by decide)

end ExcelExtract
